import Mathlib

/-!
Verification development for the aus_data_scraper repository.

The definitions below are shallow embeddings of the crawl orchestration and
content-structuring engine: the string and URL helpers from
src/src/utils/url_utils.py and the Python standard library calls the source
makes, the link classifier from src/src/utils/section_detector.py, the
breadth-first crawl loop from src/src/generic_scraper.py, the section
extraction of src/src/parser/detail_parser.py, and the batched enrichment of
src/scraper/generic_enricher.py.  Machine strings are Lean strings (lists of
characters); HTML documents are modelled as the element trees and anchor
lists the source inspects; external failures (browser errors, classifier
errors) are Option results.
-/

namespace AusScraper

/-! ## Python string primitives used by the source -/

/-- Characters the Python regex class matches for whitespace (ASCII model). -/
def isPySpace (c : Char) : Bool :=
  c = ' ' || c = '\t' || c = '\n' || c = '\r' || c = Char.ofNat 11 || c = Char.ofNat 12

/-- Model of Python lstrip with a single strip character, on character lists. -/
def dropLeading (c : Char) (l : List Char) : List Char :=
  l.dropWhile (fun a => a = c)

/-- Model of Python rstrip with a single strip character, on character lists. -/
def dropTrailing (c : Char) (l : List Char) : List Char :=
  (l.reverse.dropWhile (fun a => a = c)).reverse

/-- Model of Python strip with a single strip character, on character lists. -/
def pyStripChar (c : Char) (l : List Char) : List Char :=
  dropTrailing c (dropLeading c l)

/-- Model of Python rstrip on strings. -/
def pyRstrip (c : Char) (s : String) : String :=
  String.mk (dropTrailing c s.data)

/-- Model of Python strip on strings. -/
def pyStrip (c : Char) (s : String) : String :=
  String.mk (pyStripChar c s.data)

/-- Model of Python str.split with a one-character separator: empty input gives
one empty group, adjacent separators give empty groups. -/
def splitSep (c : Char) : List Char → List (List Char)
  | [] => [[]]
  | a :: rest =>
    if a = c then [] :: splitSep c rest
    else
      match splitSep c rest with
      | [] => [[a]]
      | s :: groups => (a :: s) :: groups

/-- Model of Python separator.join, on character lists. -/
def joinSep (c : Char) : List (List Char) → List Char
  | [] => []
  | [s] => s
  | s :: rest => s ++ c :: joinSep c rest

/-- Model of Python str.split with a one-character separator, on strings. -/
def pySplit (c : Char) (s : String) : List String :=
  (splitSep c s.data).map String.mk

/-- Model of Python separator.join for a one-character separator, on strings. -/
def pyJoin (c : Char) (l : List String) : String :=
  String.mk (joinSep c (l.map String.data))

/-- Model of Python str.startswith. -/
def pyStartsWith (s p : String) : Bool :=
  p.data.isPrefixOf s.data

/-- Split a character list at the first occurrence of a literal substring,
returning the pieces before and after it, or none when it does not occur. -/
def splitOnceSub (sep : List Char) : List Char → Option (List Char × List Char)
  | [] => if sep = [] then some ([], []) else none
  | a :: rest =>
    if sep.isPrefixOf (a :: rest) then some ([], (a :: rest).drop sep.length)
    else
      match splitOnceSub sep rest with
      | some (x, y) => some (a :: x, y)
      | none => none

/-- Whether a literal substring occurs in a string (model of the Python
membership test on strings). -/
def containsSub (s pat : String) : Bool :=
  (splitOnceSub pat.data s.data).isSome

/-! ## URL parsing (model of urllib.parse for the shapes the source handles) -/

structure ParsedUrl where
  scheme : String
  netloc : String
  path : String
  query : String
  fragment : String
deriving DecidableEq, Repr

/-- Split off the fragment at the first hash character. -/
def splitFragment (l : List Char) : List Char × List Char :=
  match splitOnceSub ['#'] l with
  | some (a, b) => (a, b)
  | none => (l, [])

/-- Split off the query at the first question mark. -/
def splitQuery (l : List Char) : List Char × List Char :=
  match splitOnceSub ['?'] l with
  | some (a, b) => (a, b)
  | none => (l, [])

/-- Model of urllib.parse.urlparse for URLs of the shape
scheme://netloc/path?query#fragment, plus scheme-less references: the fragment
is split at the first hash, then the query at the first question mark. -/
def urlparse (s : String) : ParsedUrl :=
  match splitOnceSub [':', '/', '/'] s.data with
  | some (sch, rest) =>
    let netloc := rest.takeWhile (fun c => ¬ (c = '/' || c = '?' || c = '#'))
    let after := rest.drop netloc.length
    let (beforeFrag, frag) := splitFragment after
    let (path, query) := splitQuery beforeFrag
    ⟨String.mk sch, String.mk netloc, String.mk path, String.mk query, String.mk frag⟩
  | none =>
    let (beforeFrag, frag) := splitFragment s.data
    let (path, query) := splitQuery beforeFrag
    ⟨"", "", String.mk path, String.mk query, String.mk frag⟩

/-- Whether a reference is an absolute URL with an authority part. -/
def hasSchemeSep (s : String) : Bool :=
  (splitOnceSub [':', '/', '/'] s.data).isSome

/-- Directory part of a path: everything up to and including the last slash
(empty when the path has no slash). -/
def dirOfPath (l : List Char) : List Char :=
  (l.reverse.dropWhile (fun c => ¬ c = '/')).reverse

/-- Model of urllib.parse.urljoin restricted to the reference shapes the
source produces: absolute URLs, root-relative paths, bare fragments, and
dot-free relative paths resolved against the base directory. -/
def urljoin (base url : String) : String :=
  if hasSchemeSep url then url
  else
    let b := urlparse base
    let root := b.scheme ++ "://" ++ b.netloc
    if pyStartsWith url "/" then root ++ url
    else if pyStartsWith url "#" then
      root ++ b.path ++ (if b.query = "" then "" else "?" ++ b.query) ++ url
    else if url = "" then base
    else
      let dir := dirOfPath b.path.data
      let dir := if dir = [] then ['/'] else dir
      root ++ String.mk dir ++ url

/-! ## url_to_slug (src/src/utils/url_utils.py) -/

/-- ASCII model of the Python regex word class: letters, digits, underscore. -/
def isWordCharAscii (c : Char) : Bool :=
  (65 ≤ c.toNat && c.toNat ≤ 90) || (97 ≤ c.toNat && c.toNat ≤ 122)
    || (48 ≤ c.toNat && c.toNat ≤ 57) || c = '_'

/-- One character of the substitution that maps every character outside the
word class and hyphen to an underscore. -/
def subChar (c : Char) : Char :=
  if isWordCharAscii c || c = '-' then c else '_'

/-- The substitution replacing every non-word, non-hyphen character by an
underscore (the first regex substitution in url_to_slug). -/
def subToUnderscore (l : List Char) : List Char :=
  l.map subChar

/-- Collapse every run of underscores to a single underscore (the second
regex substitution in url_to_slug), by repeatedly deleting an underscore
that is followed by another. -/
def collapseUnd : List Char → List Char
  | [] => []
  | [a] => [a]
  | a :: b :: rest =>
    if a = '_' && b = '_' then collapseUnd (b :: rest)
    else a :: collapseUnd (b :: rest)

/-- ASCII model of Python str.lower on one character. -/
def pyLowerChar (c : Char) : Char :=
  if 65 ≤ c.toNat && c.toNat ≤ 90 then Char.ofNat (c.toNat + 32) else c

/-- ASCII model of Python str.lower. -/
def pyLower (l : List Char) : List Char :=
  l.map pyLowerChar

/-- Slug computed from a path string: strip slashes, substitute non-word
characters, collapse underscore runs, lowercase, strip underscores. -/
def slugOfPath (p : String) : String :=
  String.mk (pyStripChar '_' (pyLower (collapseUnd (subToUnderscore (pyStripChar '/' p.data)))))

/-- Transcription of url_to_slug (src/src/utils/url_utils.py): parse the URL,
strip slashes from the path, replace non-word and non-hyphen characters by
underscores, collapse underscore runs, lowercase, and strip underscores. -/
def url_to_slug (url : String) : String :=
  slugOfPath (urlparse url).path

/-- Characters on which the slug substitutions act as the identity: lowercase
letters, digits, and the hyphen. -/
def goodChar (c : Char) : Bool :=
  (97 ≤ c.toNat && c.toNat ≤ 122) || (48 ≤ c.toNat && c.toNat ≤ 57) || c = '-'

/-- Well-segmented paths: a leading slash followed by slash-separated
segments that are non-empty and consist of lowercase letters, digits, and
hyphens (in particular no trailing slash and no empty segment). -/
def goodPathB (p : String) : Bool :=
  match p.data with
  | [] => false
  | a :: body => a = '/' && (splitSep '/' body).all (fun s => !s.isEmpty && s.all goodChar)

/-! ## SectionDetector (src/src/utils/section_detector.py) -/

structure SectionDetector where
  base_url : String
  link_filter : String
  follow_all_links : Bool
deriving DecidableEq, Repr

/-- The parsed base URL the detector stores at construction. -/
def SectionDetector.base_parsed (d : SectionDetector) : ParsedUrl :=
  urlparse d.base_url

/-- Transcription of SectionDetector.should_follow_url: the candidate is
resolved against the stored base URL, then the configured filter is applied;
same_path compares against the parent directory of the base path. -/
def should_follow_url (d : SectionDetector) (url : String) : Bool :=
  let parsed := urlparse (urljoin d.base_url url)
  if d.link_filter = "all" then true
  else if d.link_filter = "same_domain" then parsed.netloc = d.base_parsed.netloc
  else if d.link_filter = "same_path" then
    let base_path := pyRstrip '/' d.base_parsed.path
    let base_path := pyJoin '/' ((pySplit '/' base_path).dropLast)
    let link_path := pyRstrip '/' parsed.path
    parsed.netloc = d.base_parsed.netloc
      && (pyStartsWith link_path base_path || link_path = pyRstrip '/' d.base_parsed.path)
  else false

/-- Formalisation of the spec sentence for the same_path filter, written from
the spec words alone: true iff the host matches and the candidate path equals
the seed path or starts with the seed's parent-path (the seed path with its
last component stripped), paths normalised up to a trailing slash. -/
def samePathSpec (seed candidate : String) : Bool :=
  let s := urlparse seed
  let c := urlparse candidate
  let seedPath := pyRstrip '/' s.path
  let parentDir := pyJoin '/' ((pySplit '/' seedPath).dropLast)
  c.netloc = s.netloc
    && (pyStartsWith (pyRstrip '/' c.path) parentDir || pyRstrip '/' c.path = seedPath)

/-! ## Link categorisation (SectionDetector.categorize_links)

Anchors are modelled by the attributes the source reads from them.  The two
CSS-selector scans (whether an ancestor matches one of IGNORE_SELECTORS, and
whether the tag or an ancestor matches one of STRUCTURAL_SELECTORS or carries
one of the structural class names) are DOM-library look-ups; the model records
their outcome on each anchor node. -/

structure RefLink where
  text : String
  url : String
  context : String
deriving DecidableEq, Repr

structure Anchor where
  href : String
  text : String
  context : String
  ignoreBySelector : Bool
  structuralBySelector : Bool
deriving DecidableEq, Repr

/-- Page DOM as the link classifier consumes it: the hrefs of the first link
of each tile inside a tiles-container, the hrefs of the first link of each
generic card or tile element, and every anchor tag in document order. -/
structure PageDom where
  tileLinks : List String
  cardLinks : List String
  anchors : List Anchor
deriving DecidableEq, Repr

/-- Transcription of SectionDetector.should_ignore_link: an ancestor matching
an ignore selector, an empty or hash-only href, or a javascript, mailto, tel,
sms or ftp target. -/
def should_ignore_link (a : Anchor) : Bool :=
  a.ignoreBySelector
    || a.href = "" || a.href = "#" || pyStartsWith a.href "javascript:"
    || pyStartsWith a.href "mailto:" || pyStartsWith a.href "tel:"
    || pyStartsWith a.href "sms:" || pyStartsWith a.href "ftp:"

/-- Transcription of SectionDetector.is_structural_link: a structural selector
or class match, a section-like pattern in the href, or (outside
follow_all_links mode) a same-page anchor with a non-empty fragment. -/
def is_structural_link (d : SectionDetector) (a : Anchor) : Bool :=
  a.structuralBySelector
    || containsSub a.href "/section/" || containsSub a.href "/category/"
    || containsSub a.href "/topic/"
    || (!d.follow_all_links && pyStartsWith a.href "#" && a.href.length > 1)

/-- Accumulator of categorize_links: structural links, referenced links, and
the set of absolute URLs already processed. -/
structure CatAcc where
  structural : List String
  referenced : List RefLink
  seen : List String
deriving DecidableEq, Repr

/-- One tile of the tiles-container pass: resolve, test the scope filter, and
append (this pass records the URL as seen but does not test it). -/
def tilePass (d : SectionDetector) (acc : CatAcc) (href : String) : CatAcc :=
  let absolute := urljoin d.base_url href
  if should_follow_url d absolute then
    { acc with seen := acc.seen ++ [absolute], structural := acc.structural ++ [absolute] }
  else acc

/-- One element of the generic card and tile pass: resolve, skip already-seen
URLs, test the scope filter, and append. -/
def cardPass (d : SectionDetector) (acc : CatAcc) (href : String) : CatAcc :=
  let absolute := urljoin d.base_url href
  if absolute ∉ acc.seen ∧ should_follow_url d absolute then
    { acc with seen := acc.seen ++ [absolute], structural := acc.structural ++ [absolute] }
  else acc

/-- One anchor of the main pass: skip ignored anchors, resolve against the
base URL, skip already-seen URLs, record the URL as seen, test the scope
filter, then route to the structural or the referenced list (skipping bare
same-page anchors in follow_all_links mode). -/
def anchorPass (d : SectionDetector) (acc : CatAcc) (a : Anchor) : CatAcc :=
  if should_ignore_link a then acc
  else
    let absolute := urljoin d.base_url a.href
    if absolute ∈ acc.seen then acc
    else
      let acc1 := { acc with seen := acc.seen ++ [absolute] }
      if ¬ should_follow_url d absolute then acc1
      else if d.follow_all_links || is_structural_link d a then
        let p := urlparse absolute
        if d.follow_all_links && !(p.fragment = "") && p.path = "" then acc1
        else { acc1 with structural := acc1.structural ++ [absolute] }
      else { acc1 with referenced := acc1.referenced ++ [⟨a.text, absolute, a.context⟩] }

/-- Transcription of SectionDetector.categorize_links: the tiles-container
pass, then the generic card pass, then the pass over all anchor tags. -/
def categorize_links (d : SectionDetector) (dom : PageDom) : List String × List RefLink :=
  let acc0 : CatAcc := ⟨[], [], []⟩
  let acc1 := dom.tileLinks.foldl (tilePass d) acc0
  let acc2 := dom.cardLinks.foldl (cardPass d) acc1
  let acc3 := dom.anchors.foldl (anchorPass d) acc2
  (acc3.structural, acc3.referenced)

/-! ## GenericParser.parse and the crawl loop (src/src/generic_scraper.py) -/

/-- Fields of GenericPageData that the crawl loop reads: the page URL, the
structural links discovered on it, the referenced links, the parent URL and
the crawl depth.  Content extraction fields are not consumed by the loop. -/
structure GenericPageData where
  url : String
  discovered_links : List String
  referenced_links : List RefLink
  parent_url : Option String
  depth : Nat
deriving DecidableEq, Repr

/-- Transcription of GenericParser.parse restricted to the link fields: the
parser is constructed with the URL being parsed, which becomes the section
detector's base URL, and categorize_links runs before junk removal. -/
def parsePage (url : String) (link_filter : String) (follow_all : Bool)
    (dom : PageDom) (parent_url : Option String) (depth : Nat) : GenericPageData :=
  let cat := categorize_links ⟨url, link_filter, follow_all⟩ dom
  ⟨url, cat.1, cat.2, parent_url, depth⟩

/-- Crawl configuration: the fields of JobConfig and its crawl_config that
the loop reads. -/
structure JobConfig where
  start_url : String
  maxDepth : Nat
  max_pages : Nat
  link_filter : String
  follow_all_links : Bool
deriving DecidableEq, Repr

/-- State of the breadth-first loop of GenericScraper._crawl_all_pages.  The
first four fields transcribe the loop variables (scraped_pages, visited_urls,
queue, crawl_state.failed_urls); visitedLog and queuedLog transcribe the
append-only crawl_state.visited_urls and crawl_state.queued_urls; dequeuedLog
and enqueueLog are ghost histories recording every popleft and every append
to the queue (with the discovering page's depth), used only to state
properties of the run. -/
structure CrawlSt where
  scraped : List GenericPageData
  visited : List String
  queue : List (String × Nat)
  failed : List String
  visitedLog : List String
  queuedLog : List String
  dequeuedLog : List (String × Nat)
  enqueueLog : List (Nat × String × Nat)
deriving DecidableEq, Repr

/-- Initial crawl state: the queue seeded with (start_url, 0) and
crawl_state.queued_urls initialised to [start_url]. -/
def initSt (cfg : JobConfig) : CrawlSt :=
  ⟨[], [], [(cfg.start_url, 0)], [], [], [cfg.start_url], [], []⟩

/-- One iteration of the while loop of _crawl_all_pages.  The outside world
(browser rendering) is a function from URL to an optional DOM; none models
the crawl_page call raising, which sends the URL to failed_urls.  Returns
none when the loop exits (empty queue or page bound reached).  Otherwise:
pop the front pair, skip it if the URL is visited or the depth exceeds the
bound, else mark the URL visited before rendering, parse with the current
URL as the parser base, record the page, and enqueue every discovered link
not yet visited at depth + 1. -/
def stepCrawl (cfg : JobConfig) (world : String → Option PageDom) (s : CrawlSt) :
    Option CrawlSt :=
  match s.queue with
  | [] => none
  | (url, depth) :: rest =>
    if ¬ s.scraped.length < cfg.max_pages then none
    else
      let s1 := { s with queue := rest, dequeuedLog := s.dequeuedLog ++ [(url, depth)] }
      if url ∈ s.visited then some s1
      else if cfg.maxDepth < depth then some s1
      else
        let vis := s.visited ++ [url]
        match world url with
        | none => some { s1 with visited := vis, failed := s.failed ++ [url] }
        | some dom =>
          let pd := parsePage url cfg.link_filter cfg.follow_all_links dom
            (if depth = 0 then none else some cfg.start_url) depth
          let fresh := pd.discovered_links.filter (fun u => u ∉ vis)
          some { s1 with
            visited := vis
            scraped := s.scraped ++ [pd]
            visitedLog := s.visitedLog ++ [url]
            queue := rest ++ fresh.map (fun u => (u, depth + 1))
            queuedLog := s.queuedLog ++ fresh
            enqueueLog := s.enqueueLog ++ fresh.map (fun u => (depth, u, depth + 1)) }

/-- The crawl state after n loop iterations (absorbing once the loop exits,
so every reachable state is runCrawl at some n). -/
def runCrawl (cfg : JobConfig) (world : String → Option PageDom) : Nat → CrawlSt
  | 0 => initSt cfg
  | n + 1 =>
    match stepCrawl cfg world (runCrawl cfg world n) with
    | some s => s
    | none => runCrawl cfg world n

/-! ## Batched enrichment (src/scraper/generic_enricher.py) -/

/-- Fixed-size batches pages[i : i + b] for i in range(0, len(pages), b),
computed with the list length as fuel (the source requires a positive batch
size; range raises on step 0). -/
def takeBatchesGo {α : Type} (b : Nat) : Nat → List α → List (List α)
  | _, [] => []
  | 0, _ :: _ => []
  | fuel + 1, x :: xs => ((x :: xs).take b) :: takeBatchesGo b fuel ((x :: xs).drop b)

/-- The batches of a list for a positive batch size. -/
def takeBatches {α : Type} (b : Nat) (l : List α) : List (List α) :=
  takeBatchesGo b l.length l

/-- Transcription of GenericEnricher.enrich_multiple_pages: process the pages
in fixed-size batches; within a batch, asyncio.gather with return_exceptions
delivers one result per task in task order, an enrich_page call that raises
being modelled as none; exceptions are filtered out and the successes of each
batch are appended in order. -/
def enrich_multiple_pages {α β : Type} (f : α → Option β) (pages : List α)
    (batch_size : Nat) : List β :=
  ((takeBatches batch_size pages).map (fun batch => (batch.map f).filterMap id)).flatten

/-! ## Detail-page section extraction (src/src/parser/detail_parser.py)

The DOM is modelled as a tree of elements carrying a tag name, their direct
text, and their child elements; get_text concatenates the text of an element
and all of its descendants in document order. -/

inductive El where
  | mk (name : String) (text : String) (children : List El)
deriving Repr

def El.name : El → String
  | .mk n _ _ => n

def El.text : El → String
  | .mk _ t _ => t

def El.children : El → List El
  | .mk _ _ c => c

mutual

/-- Model of BeautifulSoup get_text: all text of the subtree in order. -/
def getText : El → String
  | .mk _ t cs => t ++ getTextList cs

def getTextList : List El → String
  | [] => ""
  | e :: es => getText e ++ getTextList es

end

mutual

/-- An element followed by all of its descendants, in document order. -/
def elSubtree : El → List El
  | .mk n t cs => .mk n t cs :: descendantsList cs

/-- All elements of the subtrees of a list of elements, in document
(preorder) order, each element before its own descendants. -/
def descendantsList : List El → List El
  | [] => []
  | e :: es => elSubtree e ++ descendantsList es

end

/-- Collapse every maximal run of whitespace to a single space (the first
substitution of DetailParser._clean_text): a whitespace character followed by
another is dropped, a last-of-run whitespace character becomes a space. -/
def collapseWs : List Char → List Char
  | [] => []
  | [a] => if isPySpace a then [' '] else [a]
  | a :: b :: rest =>
    if isPySpace a && isPySpace b then collapseWs (b :: rest)
    else (if isPySpace a then ' ' else a) :: collapseWs (b :: rest)

/-- Case-insensitive literal match of a pattern at the front of a list
(ASCII model of the ignore-case flag of the junk-phrase substitutions). -/
def isFrontCI : List Char → List Char → Bool
  | [], _ => true
  | _ :: _, [] => false
  | p :: ps, c :: cs => (pyLowerChar p = pyLowerChar c) && isFrontCI ps cs

/-- Delete every case-insensitive occurrence of the pattern (given as head
and tail), scanning left to right without revisiting deleted text, as the
regex substitution with an empty replacement does; the list length serves as
fuel (each step consumes at least one character, so the fuel suffices). -/
def removeCIFuel (p : Char) (ps : List Char) : Nat → List Char → List Char
  | _, [] => []
  | 0, l => l
  | fuel + 1, c :: rest =>
    if isFrontCI (p :: ps) (c :: rest) then removeCIFuel p ps fuel (rest.drop ps.length)
    else c :: removeCIFuel p ps fuel rest

/-- Delete every case-insensitive occurrence of a literal pattern. -/
def removeCI (pat : String) (l : List Char) : List Char :=
  match pat.data with
  | [] => l
  | p :: ps => removeCIFuel p ps l.length l

/-- Model of Python str.strip with no argument: remove whitespace from both
ends. -/
def pyStripWs (l : List Char) : List Char :=
  ((l.dropWhile isPySpace).reverse.dropWhile isPySpace).reverse

/-- Transcription of DetailParser._clean_text: collapse whitespace runs,
delete the junk phrases case-insensitively in order, and strip. -/
def clean_text (s : String) : String :=
  if s = "" then ""
  else
    let t := collapseWs s.data
    let t := removeCI "back to top" t
    let t := removeCI "skip to content" t
    let t := removeCI "skip to main content" t
    let t := removeCI "print this page" t
    let t := removeCI "share this page" t
    String.mk (pyStripWs t)

/-- Transcription of DetailParser._extract_text_with_structure: bulleted
items for unordered lists, numbered items for ordered lists (numbered by
position among all direct li children), pipe-joined rows for tables, and
cleaned plain text otherwise. -/
def extractTextWithStructure (e : El) : String :=
  if e.name = "ul" then
    let items := (e.children.filter (fun c => c.name = "li")).filterMap (fun li =>
      let t := clean_text (getText li)
      if t = "" then none else some ("- " ++ t))
    String.intercalate "\n" items
  else if e.name = "ol" then
    let lis := e.children.filter (fun c => c.name = "li")
    let items := lis.enum.filterMap (fun p =>
      let t := clean_text (getText p.2)
      if t = "" then none else some (toString (p.1 + 1) ++ ". " ++ t))
    String.intercalate "\n" items
  else if e.name = "table" then
    let trs := (descendantsList e.children).filter (fun c => c.name = "tr")
    let rows := trs.filterMap (fun tr =>
      let cells := ((descendantsList tr.children).filter
        (fun c => c.name = "td" || c.name = "th")).map (fun c => clean_text (getText c))
      if cells.any (fun c => ¬ c = "") then some (String.intercalate " | " cells)
      else none)
    String.intercalate "\n" rows
  else clean_text (getText e)

/-- Transcription of DetailParser._join_content: drop blocks that are blank
after stripping and join the rest with blank lines. -/
def join_content (parts : List String) : String :=
  String.intercalate "\n\n" (parts.filter (fun c => ¬ String.mk (pyStripWs c.data) = ""))

structure VisaSection where
  title : String
  content : String
deriving DecidableEq, Repr

/-- Python truthiness of the current section title: a started section whose
cleaned title is non-empty. -/
def truthyTitle : Option String → Bool
  | none => false
  | some t => ¬ t = ""

/-- The tag names that the primary scan collects as section content. -/
def isContentName (n : String) : Bool :=
  n = "p" || n = "ul" || n = "ol" || n = "div" || n = "table"

/-- Close the section under construction: append it when a title is truthy
and the joined content is non-empty. -/
def closeSection (title? : Option String) (parts : List String)
    (out : List VisaSection) : List VisaSection :=
  match title? with
  | none => out
  | some t =>
    if ¬ t = "" then
      let c := join_content parts
      if ¬ c = "" then out ++ [⟨t, c⟩] else out
    else out

/-- One top-level element of the primary scan of _extract_sections: an h2 or
h3 heading closes the previous section and starts a new one; content tags are
accumulated while a truthy title is open. -/
def primaryFold (st : Option String × List String × List VisaSection) (e : El) :
    Option String × List String × List VisaSection :=
  let (title?, parts, out) := st
  if e.name = "h2" || e.name = "h3" then
    (some (clean_text (getText e)), [], closeSection title? parts out)
  else if truthyTitle title? && isContentName e.name then
    let t := extractTextWithStructure e
    if t = "" then (title?, parts, out) else (title?, parts ++ [t], out)
  else (title?, parts, out)

/-- The primary top-level scan of DetailParser._extract_sections over the
direct children of the main content container. -/
def primarySections (mainChildren : List El) : List VisaSection :=
  let st := mainChildren.foldl primaryFold (none, [], [])
  closeSection st.1 st.2.1 st.2.2

/-- Whether a tag name is one of the heading names the fallback scans. -/
def isFallbackHeading (n : String) : Bool :=
  n = "h2" || n = "h3" || n = "h4"

/-- The sibling walk of _extract_sections_fallback: collect content tags from
the following siblings, stopping at the first h2, h3 or h4. -/
def collectUntilHeading : List El → List String
  | [] => []
  | e :: rest =>
    if isFallbackHeading e.name then []
    else if isContentName e.name then
      let t := extractTextWithStructure e
      (if t = "" then [] else [t]) ++ collectUntilHeading rest
    else collectUntilHeading rest

mutual

/-- The headings strictly below an element, paired with their siblings. -/
def headingsBelow : El → List (El × List El)
  | .mk _ _ cs => headingsWithSiblings cs

/-- Every h2, h3 or h4 of the subtrees, in document order, paired with its
following siblings (the find_all plus find_next_siblings traversal of the
fallback). -/
def headingsWithSiblings : List El → List (El × List El)
  | [] => []
  | e :: es =>
    (if isFallbackHeading e.name then [(e, es)] else [])
      ++ headingsBelow e ++ headingsWithSiblings es

end

/-- Transcription of DetailParser._extract_sections_fallback: for every h2,
h3 or h4 anywhere under the main content, take its cleaned text as title
(skipping blank titles), collect content from its following siblings up to
the next h2, h3 or h4, and keep the section when the content is non-empty. -/
def fallbackSections (mainChildren : List El) : List VisaSection :=
  (headingsWithSiblings mainChildren).filterMap (fun hs =>
    let title := clean_text (getText hs.1)
    if title = "" then none
    else
      let content := join_content (collectUntilHeading hs.2)
      if content = "" then none else some ⟨title, content⟩)

/-- Transcription of DetailParser._extract_sections: the primary top-level
scan, falling back to the heading scan when it finds no sections. -/
def extract_sections (mainChildren : List El) : List VisaSection :=
  let sections := primarySections mainChildren
  if sections.isEmpty then fallbackSections mainChildren else sections

/-- Numeric rank of a heading name (h2 before h3 before h4). -/
def headingRank (n : String) : Nat :=
  if n = "h2" then 2 else if n = "h3" then 3 else 4

/-- Modelled from the spec: the sibling walk the spec describes for the
fallback, collecting following siblings until the next heading of
equal-or-higher rank, so that a lower-ranked heading does not stop the
collection. -/
def collectUntilHeadingRankSpec (rank : Nat) : List El → List String
  | [] => []
  | e :: rest =>
    if isFallbackHeading e.name && headingRank e.name ≤ rank then []
    else if isContentName e.name then
      let t := extractTextWithStructure e
      (if t = "" then [] else [t]) ++ collectUntilHeadingRankSpec rank rest
    else collectUntilHeadingRankSpec rank rest

/-- Modelled from the spec: the fallback section extraction with the
equal-or-higher-rank stopping rule. -/
def fallbackSectionsSpec (mainChildren : List El) : List VisaSection :=
  (headingsWithSiblings mainChildren).filterMap (fun hs =>
    let title := clean_text (getText hs.1)
    if title = "" then none
    else
      let content :=
        join_content (collectUntilHeadingRankSpec (headingRank hs.1.name) hs.2)
      if content = "" then none else some ⟨title, content⟩)

/-! ## General lemmas about the crawl loop and the link classifier -/

/-- A property of crawl states that holds initially and is preserved by every
loop iteration holds at every point of the run. -/
theorem runCrawl_inv (cfg : JobConfig) (world : String → Option PageDom)
    {P : CrawlSt → Prop} (h0 : P (initSt cfg))
    (hstep : ∀ s s', P s → stepCrawl cfg world s = some s' → P s') :
    ∀ n, P (runCrawl cfg world n) := by
  intro n
  induction n with
  | zero => exact h0
  | succ n ih =>
    rw [runCrawl]
    cases h : stepCrawl cfg world (runCrawl cfg world n) with
    | none => exact ih
    | some s => exact hstep _ _ ih h

/-- A property preserved by each fold step is preserved by the fold. -/
theorem foldl_inv {α σ : Type} (f : σ → α → σ) (P : σ → Prop)
    (h : ∀ acc x, P acc → P (f acc x)) :
    ∀ (l : List α) (acc : σ), P acc → P (l.foldl f acc) := by
  intro l
  induction l with
  | nil => intro acc hacc; exact hacc
  | cons x xs ih => intro acc hacc; exact ih _ (h acc x hacc)

/-- The tiles-container pass only appends URLs accepted by the scope filter. -/
theorem tilePass_scope (d : SectionDetector) (acc : CatAcc) (x : String)
    (hx : ∀ u ∈ acc.structural, should_follow_url d u = true) :
    ∀ u ∈ (tilePass d acc x).structural, should_follow_url d u = true := by
  dsimp only [tilePass]
  split
  next hcond =>
    intro u hu
    simp at hu
    rcases hu with hu | hu
    · exact hx u hu
    · subst hu; exact hcond
  · exact hx

/-- The card pass only appends URLs accepted by the scope filter. -/
theorem cardPass_scope (d : SectionDetector) (acc : CatAcc) (x : String)
    (hx : ∀ u ∈ acc.structural, should_follow_url d u = true) :
    ∀ u ∈ (cardPass d acc x).structural, should_follow_url d u = true := by
  dsimp only [cardPass]
  split
  next hcond =>
    intro u hu
    simp at hu
    rcases hu with hu | hu
    · exact hx u hu
    · subst hu; exact hcond.2
  · exact hx

/-- The anchor pass only appends structural URLs accepted by the scope
filter. -/
theorem anchorPass_scope (d : SectionDetector) (acc : CatAcc) (x : Anchor)
    (hx : ∀ u ∈ acc.structural, should_follow_url d u = true) :
    ∀ u ∈ (anchorPass d acc x).structural, should_follow_url d u = true := by
  dsimp only [anchorPass]
  split
  · exact hx
  split
  · exact hx
  split
  · exact hx
  next hfollow =>
    split
    · split
      · exact hx
      · intro u hu
        simp at hu
        rcases hu with hu | hu
        · exact hx u hu
        · subst hu; simpa using hfollow
    · exact hx

/-- Every structural link reported by categorize_links passed the scope
filter of the detector it ran with. -/
theorem structural_in_scope (d : SectionDetector) (dom : PageDom) :
    ∀ u ∈ (categorize_links d dom).1, should_follow_url d u = true := by
  unfold categorize_links
  apply foldl_inv (anchorPass d)
    (fun a => ∀ u ∈ a.structural, should_follow_url d u = true)
    (fun acc x hx => anchorPass_scope d acc x hx)
  apply foldl_inv (cardPass d)
    (fun a => ∀ u ∈ a.structural, should_follow_url d u = true)
    (fun acc x hx => cardPass_scope d acc x hx)
  apply foldl_inv (tilePass d)
    (fun a => ∀ u ∈ a.structural, should_follow_url d u = true)
    (fun acc x hx => tilePass_scope d acc x hx)
  simp

/-- Bound invariant of the crawl loop: one page is recorded per iteration
only below the page bound, and only below the depth bound. -/
theorem c2_pres (cfg : JobConfig) (world : String → Option PageDom) :
    ∀ s s', (s.scraped.length ≤ cfg.max_pages ∧ ∀ p ∈ s.scraped, p.depth ≤ cfg.maxDepth) →
      stepCrawl cfg world s = some s' →
      (s'.scraped.length ≤ cfg.max_pages ∧ ∀ p ∈ s'.scraped, p.depth ≤ cfg.maxDepth) := by
  intro s s' hP h
  obtain ⟨hlen, hdepth⟩ := hP
  unfold stepCrawl at h
  split at h
  · exact absurd h (by simp)
  next url depth rest hq =>
    split at h
    · exact absurd h (by simp)
    next hcnt =>
      push_neg at hcnt
      split at h
      · cases h
        exact ⟨hlen, hdepth⟩
      split at h
      · cases h
        exact ⟨hlen, hdepth⟩
      next hdep =>
        push_neg at hdep
        split at h
        · cases h
          exact ⟨hlen, hdepth⟩
        · cases h
          constructor
          · simpa using hcnt
          · intro p hp
            simp at hp
            rcases hp with hp | hp
            · exact hdepth p hp
            · subst hp
              simpa [parsePage] using hdep

/-- Duplicate-freedom invariant of the crawl loop: the visited set and the
recorded page URLs never repeat, and every recorded page URL is visited. -/
theorem crawl_nodup_inv (cfg : JobConfig) (world : String → Option PageDom) (n : Nat) :
    (runCrawl cfg world n).visited.Nodup ∧
      ((runCrawl cfg world n).scraped.map GenericPageData.url).Nodup ∧
      ∀ u ∈ (runCrawl cfg world n).scraped.map GenericPageData.url,
        u ∈ (runCrawl cfg world n).visited := by
  apply runCrawl_inv cfg world (P := fun s => s.visited.Nodup ∧
    (s.scraped.map GenericPageData.url).Nodup ∧
    ∀ u ∈ s.scraped.map GenericPageData.url, u ∈ s.visited)
  · simp [initSt]
  · intro s s' hP h
    obtain ⟨hv, hs, hsub⟩ := hP
    unfold stepCrawl at h
    split at h
    · exact absurd h (by simp)
    next url depth rest hq =>
      split at h
      · exact absurd h (by simp)
      split at h
      · cases h; exact ⟨hv, hs, hsub⟩
      next hvis =>
        have hnotin : url ∉ s.scraped.map GenericPageData.url :=
          fun hmem => hvis (hsub url hmem)
        split at h
        · cases h; exact ⟨hv, hs, hsub⟩
        split at h
        · cases h
          refine ⟨by simp [List.nodup_append, hv, hvis], hs, ?_⟩
          intro u hu
          simp
          exact Or.inl (hsub u hu)
        · cases h
          refine ⟨by simp [List.nodup_append, hv, hvis], ?_, ?_⟩
          · simpa [List.nodup_append, parsePage, hs] using hnotin
          · intro u hu
            simp [parsePage] at hu ⊢
            rcases hu with hu | hu
            · exact Or.inl (hsub u (by simpa using hu))
            · exact Or.inr hu

/-- Depth invariant of the crawl loop: every recorded enqueue event carries
the discovering page's depth plus one, discovering pages are within the depth
bound, and every queued pair is at most one past the bound. -/
theorem crawl_depth_log_inv (cfg : JobConfig) (world : String → Option PageDom) (n : Nat) :
    (∀ e ∈ (runCrawl cfg world n).enqueueLog,
        e.2.2 = e.1 + 1 ∧ e.1 ≤ cfg.maxDepth) ∧
      ∀ q ∈ (runCrawl cfg world n).queue, q.2 ≤ cfg.maxDepth + 1 := by
  apply runCrawl_inv cfg world (P := fun s =>
    (∀ e ∈ s.enqueueLog, e.2.2 = e.1 + 1 ∧ e.1 ≤ cfg.maxDepth) ∧
      ∀ q ∈ s.queue, q.2 ≤ cfg.maxDepth + 1)
  · simp [initSt]
  · intro s s' hP h
    obtain ⟨he, hqd⟩ := hP
    unfold stepCrawl at h
    split at h
    · exact absurd h (by simp)
    next url depth rest hq =>
      have hrest : ∀ q ∈ rest, q.2 ≤ cfg.maxDepth + 1 := by
        intro q hmem
        exact hqd q (by rw [hq]; exact List.mem_cons_of_mem _ hmem)
      split at h
      · exact absurd h (by simp)
      split at h
      · cases h; exact ⟨he, hrest⟩
      split at h
      · cases h; exact ⟨he, hrest⟩
      next hdep =>
        push_neg at hdep
        split at h
        · cases h; exact ⟨he, hrest⟩
        · cases h
          constructor
          · intro e hmem
            simp at hmem
            rcases hmem with hmem | hmem
            · exact he e hmem
            · obtain ⟨u, _, hu⟩ := hmem
              rw [← hu]
              exact ⟨rfl, hdep⟩
          · intro q hmem
            simp at hmem
            rcases hmem with hmem | hmem
            · exact hrest q hmem
            · obtain ⟨u, _, hu⟩ := hmem
              rw [← hu]
              omega

/-- Scope invariant of the crawl loop: every link a recorded page discovered
was accepted by the scope filter of a detector whose base URL is that page's
own URL. -/
theorem crawl_scope_inv (cfg : JobConfig) (world : String → Option PageDom) (n : Nat) :
    ∀ p ∈ (runCrawl cfg world n).scraped, ∀ u ∈ p.discovered_links,
      should_follow_url ⟨p.url, cfg.link_filter, cfg.follow_all_links⟩ u = true := by
  apply runCrawl_inv cfg world (P := fun s => ∀ p ∈ s.scraped, ∀ u ∈ p.discovered_links,
    should_follow_url ⟨p.url, cfg.link_filter, cfg.follow_all_links⟩ u = true)
  · simp [initSt]
  · intro s s' hP h
    unfold stepCrawl at h
    split at h
    · exact absurd h (by simp)
    next url depth rest hq =>
      split at h
      · exact absurd h (by simp)
      split at h
      · cases h; exact hP
      split at h
      · cases h; exact hP
      split at h
      · cases h; exact hP
      next dom hdom =>
        cases h
        intro p hp
        simp at hp
        rcases hp with hp | hp
        · exact hP p hp
        · subst hp
          intro u hu
          simpa [parsePage] using structural_in_scope
            ⟨url, cfg.link_filter, cfg.follow_all_links⟩ dom u (by simpa [parsePage] using hu)

/-- Page bound invariant packaged over whole runs. -/
theorem crawl_bounds_inv (cfg : JobConfig) (world : String → Option PageDom) (n : Nat) :
    (runCrawl cfg world n).scraped.length ≤ cfg.max_pages ∧
      ∀ p ∈ (runCrawl cfg world n).scraped, p.depth ≤ cfg.maxDepth :=
  runCrawl_inv cfg world (by simp [initSt]) (c2_pres cfg world) n

/-! ## Concrete crawl runs used as test vectors -/

/-- An anchor that the selector scan marks structural. -/
def sAnchor (h : String) : Anchor := ⟨h, "t", "", false, true⟩

/-- Crawl job over host x with the unrestricted link filter. -/
def cfgA : JobConfig := ⟨"http://x/a", 3, 10, "all", false⟩

/-- Diamond-shaped site: a links to b and c, b and c both link to d. -/
def worldA : String → Option PageDom := fun u =>
  if u = "http://x/a" then some ⟨[], [], [sAnchor "http://x/b", sAnchor "http://x/c"]⟩
  else if u = "http://x/b" then some ⟨[], [], [sAnchor "http://x/d"]⟩
  else if u = "http://x/c" then some ⟨[], [], [sAnchor "http://x/d"]⟩
  else if u = "http://x/d" then some ⟨[], [], []⟩
  else none

/-- The page record the diamond crawl produces for its seed. -/
def pageA0 : GenericPageData := ⟨"http://x/a", ["http://x/b", "http://x/c"], [], none, 0⟩

/-- Crawl job over host y with depth bound zero. -/
def cfgB : JobConfig := ⟨"http://y/a", 0, 10, "all", false⟩

/-- One-link site for the depth-zero job. -/
def worldB : String → Option PageDom := fun u =>
  if u = "http://y/a" then some ⟨[], [], [sAnchor "http://y/b"]⟩ else none

/-- Seed page DOM of the same_path crawl: one structural link to a child one
directory over from the seed. -/
def domSeedE : PageDom := ⟨[], [], [sAnchor "https://ex.com/a/b/c2/child"]⟩

/-- Child page DOM of the same_path crawl: one structural link that is inside
the seed's parent directory but outside the child's own parent directory. -/
def domChildE : PageDom := ⟨[], [], [sAnchor "https://ex.com/a/b/q"]⟩

/-- Crawl job with the same_path filter. -/
def cfgE : JobConfig := ⟨"https://ex.com/a/b/c", 3, 10, "same_path", false⟩

/-- Two-page site for the same_path job. -/
def worldE : String → Option PageDom := fun u =>
  if u = "https://ex.com/a/b/c" then some domSeedE
  else if u = "https://ex.com/a/b/c2/child" then some domChildE
  else none

/-- The page record the same_path crawl produces for its seed. -/
def pageSeedE : GenericPageData :=
  ⟨"https://ex.com/a/b/c", ["https://ex.com/a/b/c2/child"], [], none, 0⟩

/-! ## Claim C1 -/

/-- C1, counterexample to the claim as stated: in the diamond crawl the URL d
is discovered by both b and c and enqueued twice, so after the fourth
iteration d is in the visited set and still in the queue (the sets are not
disjoint), and after the fifth iteration d has been dequeued twice. -/
theorem c1_visited_queue_overlap :
    "http://x/d" ∈ (runCrawl cfgA worldA 4).visited ∧
      ("http://x/d", 2) ∈ (runCrawl cfgA worldA 4).queue ∧
      (runCrawl cfgA worldA 5).dequeuedLog.count ("http://x/d", 2) = 2 := by
  decide

/-- C1, amended: for every crawl run and at every point of the loop, no URL
is ever marked visited twice and no URL is ever recorded (scraped) twice; a
URL already visited may remain in or re-enter the queue, but such entries are
discarded at dequeue instead of being processed again. -/
theorem c1_no_url_processed_twice (cfg : JobConfig) (world : String → Option PageDom)
    (n : Nat) :
    (runCrawl cfg world n).visited.Nodup ∧
      ((runCrawl cfg world n).scraped.map GenericPageData.url).Nodup :=
  ⟨(crawl_nodup_inv cfg world n).1, (crawl_nodup_inv cfg world n).2.1⟩

/-! ## Claim C2 -/

/-- C2: for every job and at every point of the crawl loop, at most max_pages
pages are recorded, and every recorded page's depth is at most the depth
bound. -/
theorem c2_page_and_depth_bounds (cfg : JobConfig) (world : String → Option PageDom)
    (n : Nat) :
    (runCrawl cfg world n).scraped.length ≤ cfg.max_pages ∧
      ∀ p ∈ (runCrawl cfg world n).scraped, p.depth ≤ cfg.maxDepth :=
  crawl_bounds_inv cfg world n

/-- C2, witness: the seed page of the diamond crawl is recorded after one
iteration and its depth is within the bound. -/
theorem c2_page_and_depth_bounds_witness :
    pageA0 ∈ (runCrawl cfgA worldA 1).scraped ∧ pageA0.depth ≤ cfgA.maxDepth :=
  ⟨by decide, (c2_page_and_depth_bounds cfgA worldA 1).2 pageA0 (by decide)⟩

/-! ## Claim C3 -/

/-- C3, counterexample to the claim as stated: with depth bound zero the seed
page's link is enqueued at depth 1, which exceeds the bound, so a queued
pair's depth can exceed max_depth; the pair is discarded at dequeue (after
two iterations only the seed has been scraped). -/
theorem c3_queued_depth_exceeds_bound :
    ("http://y/b", 1) ∈ (runCrawl cfgB worldB 1).queue ∧
      (0, "http://y/b", 1) ∈ (runCrawl cfgB worldB 1).enqueueLog ∧
      cfgB.maxDepth < 1 ∧
      (runCrawl cfgB worldB 2).scraped.map GenericPageData.url = ["http://y/a"] := by
  decide

/-- C3, amended: every pair ever placed on the queue by a discovery carries
the discovering page's depth plus one and is at most max_depth + 1 (one past
the bound, not within it); every queued pair is at most max_depth + 1; and
pairs beyond the bound are never processed, since every recorded page's depth
is at most max_depth. -/
theorem c3_enqueue_depth_parent_plus_one (cfg : JobConfig)
    (world : String → Option PageDom) (n : Nat) :
    (∀ e ∈ (runCrawl cfg world n).enqueueLog,
        e.2.2 = e.1 + 1 ∧ e.2.2 ≤ cfg.maxDepth + 1) ∧
      (∀ q ∈ (runCrawl cfg world n).queue, q.2 ≤ cfg.maxDepth + 1) ∧
      ∀ p ∈ (runCrawl cfg world n).scraped, p.depth ≤ cfg.maxDepth := by
  refine ⟨?_, (crawl_depth_log_inv cfg world n).2, (crawl_bounds_inv cfg world n).2⟩
  intro e he
  have h := (crawl_depth_log_inv cfg world n).1 e he
  omega

/-- C3, witness: the depth-1 enqueue event of the depth-zero crawl satisfies
the amended bound. -/
theorem c3_enqueue_depth_parent_plus_one_witness :
    (0, "http://y/b", 1) ∈ (runCrawl cfgB worldB 1).enqueueLog ∧
      (1 = 0 + 1 ∧ 1 ≤ cfgB.maxDepth + 1) :=
  ⟨by decide,
    (c3_enqueue_depth_parent_plus_one cfgB worldB 1).1 (0, "http://y/b", 1) (by decide)⟩

/-! ## Claim C5 -/

/-- C5, counterexample to the claim as stated: in the same_path crawl the
child page carries a candidate that is in scope for a detector anchored to
the seed URL, and a parse anchored to the seed would discover it; but the
run, which re-anchors the detector to each page's own URL, discovers nothing
on the child page and never queues the candidate. -/
theorem c5_scope_not_seed_anchored :
    (runCrawl cfgE worldE 2).scraped.map GenericPageData.discovered_links =
      [["https://ex.com/a/b/c2/child"], []] ∧
      should_follow_url ⟨cfgE.start_url, "same_path", false⟩ "https://ex.com/a/b/q" = true ∧
      (parsePage cfgE.start_url "same_path" false domChildE none 1).discovered_links =
        ["https://ex.com/a/b/q"] ∧
      "https://ex.com/a/b/q" ∉ (runCrawl cfgE worldE 2).queuedLog := by
  decide

/-- C5, amended: for every page dequeued during a crawl, the scope test
applied to that page's candidate links is anchored to the page's own URL (the
parser, and with it the section detector, is reconstructed per page with the
dequeued URL as base), not to the seed URL of the job. -/
theorem c5_scope_anchored_to_page_url (cfg : JobConfig)
    (world : String → Option PageDom) (n : Nat) :
    ∀ p ∈ (runCrawl cfg world n).scraped, ∀ u ∈ p.discovered_links,
      should_follow_url ⟨p.url, cfg.link_filter, cfg.follow_all_links⟩ u = true :=
  crawl_scope_inv cfg world n

/-- C5, witness: the seed page of the same_path crawl and its discovered
link satisfy the amended scope property. -/
theorem c5_scope_anchored_to_page_url_witness :
    pageSeedE ∈ (runCrawl cfgE worldE 1).scraped ∧
      "https://ex.com/a/b/c2/child" ∈ pageSeedE.discovered_links ∧
      should_follow_url ⟨pageSeedE.url, cfgE.link_filter, cfgE.follow_all_links⟩
        "https://ex.com/a/b/c2/child" = true :=
  ⟨by decide, by decide,
    c5_scope_anchored_to_page_url cfgE worldE 1 pageSeedE (by decide) _ (by decide)⟩

/-! ## Claim C4 -/

/-- C4: with link_filter same_path and base URL https://example.com/a/b/c,
the sibling candidate https://example.com/a/b/d is followed and the
shallower-diverging candidate https://example.com/a/x is not; and in general,
for every base URL and every absolute candidate, should_follow_url agrees
with the spec formulation: host match, and candidate path equal to the seed
path or starting with the seed's parent-path, up to trailing slashes. -/
theorem c4_same_path_filter :
    should_follow_url ⟨"https://example.com/a/b/c", "same_path", false⟩
        "https://example.com/a/b/d" = true ∧
      should_follow_url ⟨"https://example.com/a/b/c", "same_path", false⟩
        "https://example.com/a/x" = false ∧
      ∀ (base cand : String) (fal : Bool), hasSchemeSep cand = true →
        should_follow_url ⟨base, "same_path", fal⟩ cand = samePathSpec base cand := by
  refine ⟨by decide, by decide, ?_⟩
  intro base cand fal h
  simp only [should_follow_url, samePathSpec, SectionDetector.base_parsed, urljoin, h, if_true]
  rfl

/-- C4, witness: the general equivalence applied to the concrete sibling
candidate. -/
theorem c4_same_path_filter_witness :
    hasSchemeSep "https://example.com/a/b/d" = true ∧
      should_follow_url ⟨"https://example.com/a/b/c", "same_path", false⟩
          "https://example.com/a/b/d" =
        samePathSpec "https://example.com/a/b/c" "https://example.com/a/b/d" :=
  ⟨by decide, c4_same_path_filter.2.2 "https://example.com/a/b/c"
    "https://example.com/a/b/d" false (by decide)⟩

/-! ## Lemmas about batched enrichment -/

/-- Flattening the fuelled batch computation restores the list when the batch
size is positive and the fuel covers the length. -/
theorem takeBatchesGo_flatten {α : Type} (b : Nat) (hb : 0 < b) :
    ∀ (fuel : Nat) (l : List α), l.length ≤ fuel → (takeBatchesGo b fuel l).flatten = l := by
  intro fuel
  induction fuel with
  | zero =>
    intro l hl
    have : l = [] := List.eq_nil_of_length_eq_zero (by omega)
    subst this
    rfl
  | succ n ih =>
    intro l hl
    cases l with
    | nil => rfl
    | cons x xs =>
      have hlen : ((x :: xs).drop b).length ≤ n := by
        rw [List.length_drop]
        simp only [List.length_cons] at hl ⊢
        omega
      show ((x :: xs).take b :: takeBatchesGo b n ((x :: xs).drop b)).flatten = x :: xs
      rw [List.flatten_cons, ih ((x :: xs).drop b) hlen]
      exact List.take_append_drop b (x :: xs)

/-- Flattening the batches of a list restores the list. -/
theorem takeBatches_flatten {α : Type} (b : Nat) (hb : 0 < b) (l : List α) :
    (takeBatches b l).flatten = l :=
  takeBatchesGo_flatten b hb l.length l (le_refl _)

/-- Filtering batchwise and flattening equals filtering the flattened list. -/
theorem flatten_map_filterMap {α β : Type} (f : α → Option β) (L : List (List α)) :
    (L.map (fun c => c.filterMap f)).flatten = L.flatten.filterMap f := by
  induction L with
  | nil => rfl
  | cons c L ih =>
    rw [List.map_cons, List.flatten_cons, List.flatten_cons, List.filterMap_append, ih]

/-- Batched enrichment keeps exactly the successful pages, in input order. -/
theorem enrich_eq_filterMap {α β : Type} (f : α → Option β) (pages : List α)
    (b : Nat) (hb : 0 < b) :
    enrich_multiple_pages f pages b = pages.filterMap f := by
  unfold enrich_multiple_pages
  have h1 : ∀ batch : List α, (batch.map f).filterMap id = batch.filterMap f := by
    intro batch
    rw [List.filterMap_map]
    rfl
  simp only [h1]
  rw [flatten_map_filterMap, takeBatches_flatten b hb]

/-- The length of a filterMap is the count of successes. -/
theorem length_filterMap_eq {α β : Type} (f : α → Option β) (l : List α) :
    (l.filterMap f).length = l.countP (fun a => (f a).isSome) := by
  induction l with
  | nil => rfl
  | cons x xs ih =>
    cases h : f x <;> simp [List.filterMap_cons, h, List.countP_cons, ih]

/-- Successes and failures partition the list. -/
theorem countP_some_add_none {α β : Type} (f : α → Option β) (l : List α) :
    l.countP (fun a => (f a).isSome) + l.countP (fun a => (f a).isNone) = l.length := by
  induction l with
  | nil => rfl
  | cons x xs ih =>
    cases h : f x <;> simp [List.countP_cons, h] <;> omega

/-! ## Claim C9 -/

/-- C9: if enrichment fails for exactly one page of a 5-page batch, the batch
enrichment returns exactly 4 enriched records without raising (the embedded
function is total), and in general it returns exactly the successfully
enriched pages, so a failure excludes only its own page and never aborts the
batch or the run. -/
theorem c9_failure_isolation {α β : Type} (f : α → Option β) (pages : List α)
    (h5 : pages.length = 5) (h1 : pages.countP (fun p => (f p).isNone) = 1) :
    (enrich_multiple_pages f pages 5).length = 4 ∧
      enrich_multiple_pages f pages 5 = pages.filterMap f := by
  refine ⟨?_, enrich_eq_filterMap f pages 5 (by omega)⟩
  rw [enrich_eq_filterMap f pages 5 (by omega), length_filterMap_eq]
  have h2 := countP_some_add_none f pages
  omega

/-- C9, witness: a 5-page batch whose middle page fails enriches to exactly
4 records. -/
theorem c9_failure_isolation_witness :
    ([0, 1, 2, 3, 4] : List Nat).length = 5 ∧
      ([0, 1, 2, 3, 4] : List Nat).countP
        (fun p => ((fun n : Nat => if n = 2 then none else some n) p).isNone) = 1 ∧
      (enrich_multiple_pages (fun n : Nat => if n = 2 then none else some n)
        [0, 1, 2, 3, 4] 5).length = 4 :=
  ⟨by decide, by decide,
    (c9_failure_isolation (fun n : Nat => if n = 2 then none else some n)
      [0, 1, 2, 3, 4] (by decide) (by decide)).1⟩

/-! ## Claim C10 -/

/-- C10 (implicit): batched enrichment preserves input order: for every page
list and positive batch size, the result is exactly the order-preserving
subsequence of successfully enriched pages, and it is the concatenation of
the per-batch results in batch order, so all results of batch k precede all
results of batch k + 1. -/
theorem c10_order_preserved {α β : Type} (f : α → Option β) (pages : List α)
    (b : Nat) (hb : 0 < b) :
    enrich_multiple_pages f pages b = pages.filterMap f ∧
      enrich_multiple_pages f pages b =
        ((takeBatches b pages).map (fun batch => batch.filterMap f)).flatten := by
  refine ⟨enrich_eq_filterMap f pages b hb, ?_⟩
  unfold enrich_multiple_pages
  have h1 : ∀ batch : List α, (batch.map f).filterMap id = batch.filterMap f := by
    intro batch
    rw [List.filterMap_map]
    rfl
  simp only [h1]

/-- C10, witness: a 7-page run with batch size 3 and one failing page. -/
theorem c10_order_preserved_witness :
    (0 : Nat) < 3 ∧
      enrich_multiple_pages (fun n : Nat => if n = 2 then none else some n)
          [0, 1, 2, 3, 4, 5, 6] 3 =
        ([0, 1, 2, 3, 4, 5, 6] : List Nat).filterMap
          (fun n : Nat => if n = 2 then none else some n) :=
  ⟨by decide,
    (c10_order_preserved (fun n : Nat => if n = 2 then none else some n)
      [0, 1, 2, 3, 4, 5, 6] 3 (by decide)).1⟩

/-! ## Claim C6: duplicate suppression in categorize_links -/

/-- The URLs categorize_links has emitted so far, structural then referenced. -/
def outUrls (acc : CatAcc) : List String :=
  acc.structural ++ acc.referenced.map RefLink.url

/-- Invariant of the categorize_links accumulator: emitted URLs are pairwise
distinct and all recorded in the seen set. -/
def DedupInv (acc : CatAcc) : Prop :=
  (outUrls acc).Nodup ∧ ∀ u ∈ outUrls acc, u ∈ acc.seen

/-- The card pass preserves the dedup invariant: it only appends URLs absent
from the seen set. -/
theorem cardPass_dedup (d : SectionDetector) (acc : CatAcc) (x : String)
    (hx : DedupInv acc) : DedupInv (cardPass d acc x) := by
  obtain ⟨hn, hsub⟩ := hx
  dsimp only [cardPass]
  split
  next hcond =>
    constructor
    · show (acc.structural ++ [urljoin d.base_url x] ++ acc.referenced.map RefLink.url).Nodup
      rw [List.append_assoc, List.singleton_append, List.nodup_middle]
      refine List.nodup_cons.2 ⟨fun hmem => hcond.1 (hsub _ hmem), hn⟩
    · intro u hu
      show u ∈ acc.seen ++ [urljoin d.base_url x]
      have hu' : u ∈ acc.structural ++ [urljoin d.base_url x]
          ++ acc.referenced.map RefLink.url := hu
      rw [List.append_assoc, List.singleton_append] at hu'
      simp at hu' ⊢
      rcases hu' with h | h | h
      · exact Or.inl (hsub u (by simp [outUrls, h]))
      · exact Or.inr h
      · exact Or.inl (hsub u (by simp [outUrls, h]))
  · exact ⟨hn, hsub⟩

/-- The anchor pass preserves the dedup invariant: every already-seen
absolute URL is skipped, and each emitted URL is recorded as seen. -/
theorem anchorPass_dedup (d : SectionDetector) (acc : CatAcc) (x : Anchor)
    (hx : DedupInv acc) : DedupInv (anchorPass d acc x) := by
  obtain ⟨hn, hsub⟩ := hx
  have hgrow : ∀ a : String, DedupInv { acc with seen := acc.seen ++ [a] } := by
    intro a
    refine ⟨hn, fun u hu => ?_⟩
    show u ∈ acc.seen ++ [a]
    simp
    exact Or.inl (hsub u hu)
  dsimp only [anchorPass]
  split
  · exact ⟨hn, hsub⟩
  split
  · exact ⟨hn, hsub⟩
  next hseen =>
    split
    · exact hgrow _
    · split
      · split
        · exact hgrow _
        · constructor
          · show (acc.structural ++ [urljoin d.base_url x.href]
              ++ acc.referenced.map RefLink.url).Nodup
            rw [List.append_assoc, List.singleton_append, List.nodup_middle]
            exact List.nodup_cons.2 ⟨fun hmem => hseen (hsub _ hmem), hn⟩
          · intro u hu
            show u ∈ acc.seen ++ [urljoin d.base_url x.href]
            have hu' : u ∈ acc.structural ++ [urljoin d.base_url x.href]
                ++ acc.referenced.map RefLink.url := hu
            rw [List.append_assoc, List.singleton_append] at hu'
            simp at hu' ⊢
            rcases hu' with h | h | h
            · exact Or.inl (hsub u (by simp [outUrls, h]))
            · exact Or.inr h
            · exact Or.inl (hsub u (by simp [outUrls, h]))
      · constructor
        · simp only [outUrls, List.map_append, List.map_cons, List.map_nil]
          rw [← List.append_assoc, List.nodup_append]
          refine ⟨hn, by simp, ?_⟩
          intro u hu hmem
          simp at hmem
          subst hmem
          exact hseen (hsub _ hu)
        · intro u hu
          show u ∈ acc.seen ++ [urljoin d.base_url x.href]
          simp only [outUrls, List.map_append, List.map_cons, List.map_nil] at hu
          simp at hu ⊢
          rcases hu with h | h | h
          · exact Or.inl (hsub u (by simp [outUrls, h]))
          · exact Or.inl (hsub u (by simp [outUrls, h]))
          · exact Or.inr h

/-- Detector for the duplicate-handling test page. -/
def detC6 : SectionDetector := ⟨"https://ex.com/p/q", "all", false⟩

/-- Page with two plain in-scope anchors whose resolved absolute URLs differ
only in the query string. -/
def domC6 : PageDom :=
  ⟨[], [], [⟨"/p?x=1", "t1", "c1", false, false⟩, ⟨"/p?x=2", "t2", "c2", false, false⟩]⟩

/-- C6, counterexample to the claim as stated: two anchors whose absolute
URLs differ only in the query string are both kept as referenced links (the
query is not stripped before duplicate suppression), so they are not treated
as duplicates. -/
theorem c6_query_variants_not_deduped :
    (categorize_links detC6 domC6).2.map RefLink.url =
        ["https://ex.com/p?x=1", "https://ex.com/p?x=2"] ∧
      (urlparse "https://ex.com/p?x=1").path = (urlparse "https://ex.com/p?x=2").path ∧
      (urlparse "https://ex.com/p?x=1").fragment =
        (urlparse "https://ex.com/p?x=2").fragment ∧
      (urlparse "https://ex.com/p?x=1").query ≠ (urlparse "https://ex.com/p?x=2").query := by
  decide

/-- C6, amended: categorize_links resolves each anchor's href against the
page's own URL and suppresses duplicates keyed on the full resolved absolute
URL, query and fragment included, first occurrence winning; outside the
tiles-container pass (which appends without a seen-check) every absolute URL
therefore appears at most once across the structural and referenced
outputs. -/
theorem c6_dedup_on_exact_absolute_url (d : SectionDetector) (dom : PageDom)
    (ht : dom.tileLinks = []) :
    ((categorize_links d dom).1 ++ (categorize_links d dom).2.map RefLink.url).Nodup := by
  unfold categorize_links
  rw [ht]
  have base : DedupInv (⟨[], [], []⟩ : CatAcc) := by
    constructor
    · simp [outUrls]
    · intro u hu
      simp [outUrls] at hu
  have h1 : DedupInv (dom.anchors.foldl (anchorPass d)
      (dom.cardLinks.foldl (cardPass d) (List.foldl (tilePass d) ⟨[], [], []⟩ []))) := by
    apply foldl_inv (anchorPass d) DedupInv (fun acc x hx => anchorPass_dedup d acc x hx)
    apply foldl_inv (cardPass d) DedupInv (fun acc x hx => cardPass_dedup d acc x hx)
    exact base
  exact h1.1

/-- C6, witness: the duplicate-handling test page has no tiles and its
categorisation emits pairwise distinct absolute URLs. -/
theorem c6_dedup_on_exact_absolute_url_witness :
    domC6.tileLinks = [] ∧
      ((categorize_links detC6 domC6).1
        ++ (categorize_links detC6 domC6).2.map RefLink.url).Nodup :=
  ⟨rfl, c6_dedup_on_exact_absolute_url detC6 domC6 rfl⟩

/-! ## Claim C8: fallback section extraction -/

/-- The content a non-heading sibling contributes to a fallback section. -/
def contentOf (e : El) : Option String :=
  if isContentName e.name then
    (let t := extractTextWithStructure e; if t = "" then none else some t)
  else none

/-- The sibling walk of the fallback collects exactly the content of the
siblings strictly before the first h2, h3 or h4. -/
theorem collectUntilHeading_eq (sibs : List El) :
    collectUntilHeading sibs
      = (sibs.takeWhile (fun e => !isFallbackHeading e.name)).filterMap contentOf := by
  induction sibs with
  | nil => rfl
  | cons e rest ih =>
    cases hh : isFallbackHeading e.name with
    | true => simp [collectUntilHeading, List.takeWhile_cons, hh]
    | false =>
      cases hc : isContentName e.name with
      | true =>
        simp only [collectUntilHeading, List.takeWhile_cons, hh, hc, contentOf,
          List.filterMap_cons, Bool.not_false, Bool.false_eq_true, if_true, if_false, ih]
        by_cases ht : extractTextWithStructure e = "" <;> simp [ht]
      | false =>
        simp [collectUntilHeading, List.takeWhile_cons, hh, hc, contentOf,
          List.filterMap_cons, ih]

/-- Main content whose primary scan finds nothing: the headings sit inside a
wrapper division, and an h4 follows the h2 before the second paragraph. -/
def domC8 : List El :=
  [.mk "div" "" [.mk "h2" "A" [], .mk "p" "x" [], .mk "h4" "B" [], .mk "p" "y" []]]

/-- C8, counterexample to the claim as stated: the primary scan finds no
sections, so the fallback runs; the code stops collecting the h2 section at
the following h4 (content "x"), whereas the spec's equal-or-higher-rank rule
would let the h4 pass and collect "x\n\ny", so the two disagree on this
document. -/
theorem c8_lower_rank_heading_terminates :
    primarySections domC8 = [] ∧
      extract_sections domC8 = [⟨"A", "x"⟩, ⟨"B", "y"⟩] ∧
      fallbackSectionsSpec domC8 = [⟨"A", "x\n\ny"⟩, ⟨"B", "y"⟩] ∧
      extract_sections domC8 ≠ fallbackSectionsSpec domC8 := by
  decide

/-- C8, amended: when the primary top-level scan yields zero sections,
section extraction falls back to scanning all headings (h2, h3, h4) anywhere
under the main content and collects each heading's following siblings up to
the next heading of any of h2, h3 or h4, regardless of rank — a lower-ranked
heading also terminates the section being collected. -/
theorem c8_fallback_stops_at_any_heading (els : List El)
    (h : primarySections els = []) :
    extract_sections els = (headingsWithSiblings els).filterMap (fun hs =>
      let title := clean_text (getText hs.1)
      if title = "" then none
      else
        let content := join_content
          ((hs.2.takeWhile (fun e => !isFallbackHeading e.name)).filterMap contentOf)
        if content = "" then none else some ⟨title, content⟩) := by
  unfold extract_sections
  rw [h]
  simp only [List.isEmpty_nil, if_true]
  unfold fallbackSections
  simp only [collectUntilHeading_eq]

/-- C8, witness: the amended fallback description applied to the concrete
document with an h4 inside an h2 section. -/
theorem c8_fallback_stops_at_any_heading_witness :
    primarySections domC8 = [] ∧
      extract_sections domC8 = (headingsWithSiblings domC8).filterMap (fun hs =>
        let title := clean_text (getText hs.1)
        if title = "" then none
        else
          let content := join_content
            ((hs.2.takeWhile (fun e => !isFallbackHeading e.name)).filterMap contentOf)
          if content = "" then none else some ⟨title, content⟩) :=
  ⟨by decide, c8_fallback_stops_at_any_heading domC8 (by decide)⟩

/-! ## Claim C7: slug derivation -/
theorem splitSep_ne_nil (c : Char) (l : List Char) : splitSep c l ≠ [] := by
  induction l with
  | nil => simp [splitSep]
  | cons a rest ih =>
    rw [splitSep]
    split
    · simp
    · cases h : splitSep c rest with
      | nil => simp
      | cons s groups => simp

theorem joinSep_splitSep (c : Char) (l : List Char) : joinSep c (splitSep c l) = l := by
  induction l with
  | nil => rfl
  | cons a rest ih =>
    rw [splitSep]
    split
    next ha =>
      subst ha
      cases h : splitSep a rest with
      | nil => exact absurd h (splitSep_ne_nil a rest)
      | cons s groups =>
        rw [h] at ih
        rw [show joinSep a ([] :: s :: groups) = [] ++ a :: joinSep a (s :: groups) from rfl]
        simpa using ih
    next ha =>
      cases h : splitSep c rest with
      | nil => exact absurd h (splitSep_ne_nil c rest)
      | cons s groups =>
        rw [h] at ih
        cases groups with
        | nil => simpa [joinSep] using ih
        | cons g gs =>
          rw [show joinSep c ((a :: s) :: g :: gs) = (a :: s) ++ c :: joinSep c (g :: gs) from rfl]
          rw [show joinSep c (s :: g :: gs) = s ++ c :: joinSep c (g :: gs) from rfl] at ih
          simpa using ih

theorem splitPair (c : Char) :
    ∀ (s1 s2 t1 t2 : List Char), c ∉ s1 → c ∉ s2 →
      s1 ++ c :: t1 = s2 ++ c :: t2 → s1 = s2 ∧ t1 = t2 := by
  intro s1
  induction s1 with
  | nil =>
    intro s2 t1 t2 h1 h2 heq
    cases s2 with
    | nil => simpa using heq
    | cons b s2' =>
      simp at heq
      exact absurd (heq.1 ▸ List.mem_cons_self c s2') (by simpa [heq.1] using h2)
  | cons a s1' ih =>
    intro s2 t1 t2 h1 h2 heq
    cases s2 with
    | nil =>
      simp at heq
      exact absurd (heq.1 ▸ List.mem_cons_self c s1') (by simpa [heq.1] using h1)
    | cons b s2' =>
      simp at heq
      obtain ⟨hab, hrest⟩ := heq
      have := ih s2' t1 t2 (fun hm => h1 (List.mem_cons_of_mem a hm))
        (fun hm => h2 (by simpa [hab] using List.mem_cons_of_mem b hm)) hrest
      exact ⟨by simp [hab, this.1], this.2⟩


theorem joinSep_cons_ne_nil (c : Char) (s : List Char) (rest : List (List Char))
    (hs : s ≠ []) : joinSep c (s :: rest) ≠ [] := by
  cases rest with
  | nil => simpa [joinSep] using hs
  | cons t r =>
    rw [show joinSep c (s :: t :: r) = s ++ c :: joinSep c (t :: r) from rfl]
    simp

theorem joinSep_head? (c : Char) (a : Char) (s : List Char) (rest : List (List Char)) :
    (joinSep c ((a :: s) :: rest)).head? = some a := by
  cases rest with
  | nil => rfl
  | cons t r => rfl

theorem mem_of_joinSep_sep (c : Char) (s t : List Char) (r : List (List Char)) :
    c ∈ joinSep c (s :: t :: r) := by
  rw [show joinSep c (s :: t :: r) = s ++ c :: joinSep c (t :: r) from rfl]
  simp

theorem joinSep_inj (c : Char) :
    ∀ (l1 l2 : List (List Char)),
      (∀ s ∈ l1, s ≠ [] ∧ c ∉ s) → (∀ s ∈ l2, s ≠ [] ∧ c ∉ s) →
      joinSep c l1 = joinSep c l2 → l1 = l2 := by
  intro l1
  induction l1 with
  | nil =>
    intro l2 h1 h2 heq
    cases l2 with
    | nil => rfl
    | cons s rest =>
      exact absurd heq.symm (joinSep_cons_ne_nil c s rest (h2 s (by simp)).1)
  | cons s1 r1 ih =>
    intro l2 h1 h2 heq
    cases l2 with
    | nil => exact absurd heq (joinSep_cons_ne_nil c s1 r1 (h1 s1 (by simp)).1)
    | cons s2 r2 =>
      cases r1 with
      | nil =>
        cases r2 with
        | nil => simpa [joinSep] using heq
        | cons t2 rr2 =>
          rw [show joinSep c [s1] = s1 from rfl] at heq
          have hc : c ∈ s1 := heq ▸ mem_of_joinSep_sep c s2 t2 rr2
          exact absurd hc (h1 s1 (by simp)).2
      | cons t1 rr1 =>
        cases r2 with
        | nil =>
          rw [show joinSep c [s2] = s2 from rfl] at heq
          have hc : c ∈ s2 := heq ▸ mem_of_joinSep_sep c s1 t1 rr1
          exact absurd hc (h2 s2 (by simp)).2
        | cons t2 rr2 =>
          rw [show joinSep c (s1 :: t1 :: rr1) = s1 ++ c :: joinSep c (t1 :: rr1) from rfl,
            show joinSep c (s2 :: t2 :: rr2) = s2 ++ c :: joinSep c (t2 :: rr2) from rfl] at heq
          obtain ⟨hs, ht⟩ := splitPair c s1 s2 (joinSep c (t1 :: rr1)) (joinSep c (t2 :: rr2))
            (h1 s1 (by simp)).2 (h2 s2 (by simp)).2 heq
          have := ih (t2 :: rr2) (fun s hs => h1 s (by simp [hs]))
            (fun s hs => h2 s (by simp [hs])) ht
          rw [hs, this]


theorem list_getLast?_mem {α : Type} (l : List α) (hl : l ≠ []) :
    ∃ b, l.getLast? = some b ∧ b ∈ l := by
  induction l with
  | nil => exact absurd rfl hl
  | cons a rest ih =>
    cases rest with
    | nil => exact ⟨a, rfl, by simp⟩
    | cons b r =>
      obtain ⟨x, hx, hmem⟩ := ih (by simp)
      exact ⟨x, by rw [List.getLast?_cons_cons]; exact hx, by simp [hmem]⟩

theorem joinSep_getLast? (c : Char) :
    ∀ (segs : List (List Char)), segs ≠ [] → (∀ s ∈ segs, s ≠ []) →
      ∃ s, s ∈ segs ∧ (joinSep c segs).getLast? = s.getLast? := by
  intro segs
  induction segs with
  | nil => intro h; exact absurd rfl h
  | cons s rest ih =>
    intro _ hall
    cases rest with
    | nil => exact ⟨s, by simp, rfl⟩
    | cons t r =>
      obtain ⟨x, hmem, hx⟩ := ih (by simp) (fun s hs => hall s (by simp [hs]))
      refine ⟨x, by simp [hmem], ?_⟩
      rw [show joinSep c (s :: t :: r) = s ++ c :: joinSep c (t :: r) from rfl]
      rw [List.getLast?_append_of_ne_nil s (by simp)]
      rw [show (c :: joinSep c (t :: r) : List Char) = [c] ++ joinSep c (t :: r) from rfl]
      rw [List.getLast?_append_of_ne_nil [c] (joinSep_cons_ne_nil c t r (hall t (by simp)))]
      exact hx

theorem dropLeading_id (c : Char) (l : List Char) (a : Char)
    (hh : l.head? = some a) (hne : ¬ a = c) : dropLeading c l = l := by
  cases l with
  | nil => simp at hh
  | cons x rest =>
    simp at hh
    subst hh
    simp [dropLeading, List.dropWhile_cons, hne]

theorem dropTrailing_id (c : Char) (l : List Char) (a : Char)
    (hh : l.getLast? = some a) (hne : ¬ a = c) : dropTrailing c l = l := by
  unfold dropTrailing
  have hr : l.reverse.head? = some a := by
    rw [List.head?_reverse]
    exact hh
  cases hrev : l.reverse with
  | nil => simp [hrev] at hr
  | cons x rest =>
    rw [hrev] at hr
    simp at hr
    subst hr
    rw [List.dropWhile_cons]
    simp [hne]
    have hl : l = rest.reverse ++ [x] := by
      rw [← List.reverse_reverse l, hrev]
      simp
    rw [hl]


theorem map_joinSep (f : Char → Char) (c : Char) :
    ∀ segs : List (List Char),
      (joinSep c segs).map f = joinSep (f c) (segs.map (List.map f)) := by
  intro segs
  induction segs with
  | nil => rfl
  | cons s rest ih =>
    cases rest with
    | nil => rfl
    | cons t r =>
      rw [show joinSep c (s :: t :: r) = s ++ c :: joinSep c (t :: r) from rfl]
      rw [show joinSep (f c) ((s :: t :: r).map (List.map f))
        = s.map f ++ f c :: joinSep (f c) ((t :: r).map (List.map f)) from rfl]
      simp [ih]

theorem goodChar_cases (ch : Char) (h : goodChar ch = true) :
    (97 ≤ ch.toNat ∧ ch.toNat ≤ 122) ∨ (48 ≤ ch.toNat ∧ ch.toNat ≤ 57) ∨ ch = '-' := by
  simp [goodChar] at h
  tauto

theorem goodChar_subChar (ch : Char) (h : goodChar ch = true) : subChar ch = ch := by
  rcases goodChar_cases ch h with h1 | h1 | h1
  · have h2 : isWordCharAscii ch = true := by simp [isWordCharAscii]; omega
    simp [subChar, h2]
  · have h2 : isWordCharAscii ch = true := by simp [isWordCharAscii]; omega
    simp [subChar, h2]
  · subst h1; decide

theorem goodChar_lower (ch : Char) (h : goodChar ch = true) : pyLowerChar ch = ch := by
  rcases goodChar_cases ch h with h1 | h1 | h1
  · simp [pyLowerChar]; omega
  · simp [pyLowerChar]; omega
  · subst h1; decide

theorem goodChar_ne_slash (ch : Char) (h : goodChar ch = true) : ch ≠ '/' := by
  intro he; subst he; exact absurd h (by decide)

theorem goodChar_ne_und (ch : Char) (h : goodChar ch = true) : ch ≠ '_' := by
  intro he; subst he; exact absurd h (by decide)

theorem map_id_of_good (f : Char → Char) (hf : ∀ ch, goodChar ch = true → f ch = ch) :
    ∀ s : List Char, (∀ ch ∈ s, goodChar ch = true) → s.map f = s := by
  intro s
  induction s with
  | nil => intro _; rfl
  | cons a rest ih =>
    intro h
    rw [List.map_cons, hf a (h a (by simp)), ih (fun ch hm => h ch (by simp [hm]))]


theorem collapse_append (m : List Char) :
    ∀ s : List Char, s ≠ [] → (∀ ch ∈ s, ch ≠ '_') →
      collapseUnd (s ++ m) = s ++ collapseUnd m := by
  intro s
  induction s with
  | nil => intro h; exact absurd rfl h
  | cons a s' ih =>
    intro _ hch
    have ha : a ≠ '_' := hch a (by simp)
    cases s' with
    | nil =>
      cases m with
      | nil => rfl
      | cons b r =>
        rw [show ([a] ++ b :: r : List Char) = a :: b :: r from rfl]
        rw [show collapseUnd (a :: b :: r)
          = if a = '_' && b = '_' then collapseUnd (b :: r)
            else a :: collapseUnd (b :: r) from rfl]
        simp [ha]
    | cons b s'' =>
      have hb : b ≠ '_' := hch b (by simp)
      rw [show ((a :: b :: s'') ++ m : List Char) = a :: ((b :: s'') ++ m) from rfl]
      rw [show ((b :: s'') ++ m : List Char) = b :: (s'' ++ m) from rfl]
      rw [show collapseUnd (a :: b :: (s'' ++ m))
        = if a = '_' && b = '_' then collapseUnd (b :: (s'' ++ m))
          else a :: collapseUnd (b :: (s'' ++ m)) from rfl]
      have hcond : (a = '_' && b = '_') = false := by simp [ha]
      rw [hcond]
      simp only [if_false, Bool.false_eq_true]
      rw [show (b :: (s'' ++ m) : List Char) = (b :: s'') ++ m from rfl]
      rw [ih (by simp) (fun ch hm => hch ch (by simp at hm ⊢; tauto))]
      rfl


theorem collapse_joinSeg :
    ∀ segs : List (List Char),
      (∀ s ∈ segs, s ≠ [] ∧ ∀ ch ∈ s, ch ≠ '_') →
      collapseUnd (joinSep '_' segs) = joinSep '_' segs := by
  intro segs
  induction segs with
  | nil => intro _; rfl
  | cons s rest ih =>
    intro h
    obtain ⟨hs, hch⟩ := h s (by simp)
    cases rest with
    | nil =>
      rw [show joinSep '_' [s] = s from rfl]
      rw [show (s : List Char) = s ++ [] from (List.append_nil s).symm]
      rw [collapse_append [] s hs hch]
      rfl
    | cons t r =>
      obtain ⟨ht, htch⟩ := h t (by simp)
      rw [show joinSep '_' (s :: t :: r) = s ++ '_' :: joinSep '_' (t :: r) from rfl]
      rw [collapse_append ('_' :: joinSep '_' (t :: r)) s hs hch]
      obtain ⟨a, t', hat⟩ : ∃ a t', t = a :: t' := by
        cases t with
        | nil => exact absurd rfl ht
        | cons a t' => exact ⟨a, t', rfl⟩
      subst hat
      obtain ⟨tail, htail⟩ : ∃ tail, joinSep '_' ((a :: t') :: r) = a :: tail := by
        cases r with
        | nil => exact ⟨t', rfl⟩
        | cons g gs =>
          exact ⟨t' ++ '_' :: joinSep '_' (g :: gs), rfl⟩
      rw [htail]
      have hane : a ≠ '_' := htch a (by simp)
      rw [show collapseUnd ('_' :: a :: tail)
        = if '_' = '_' && a = '_' then collapseUnd (a :: tail)
          else '_' :: collapseUnd (a :: tail) from rfl]
      have hcond : ('_' = '_' && a = '_') = false := by simp [hane]
      rw [hcond]
      simp only [if_false, Bool.false_eq_true]
      rw [← htail, ih (fun x hx => h x (by simp [hx]))]


theorem goodPathB_elim (p : String) (hp : goodPathB p = true) :
    ∃ body, p.data = '/' :: body ∧
      ∀ s ∈ splitSep '/' body, s ≠ [] ∧ ∀ ch ∈ s, goodChar ch = true := by
  unfold goodPathB at hp
  cases hd : p.data with
  | nil => rw [hd] at hp; simp at hp
  | cons a body =>
    rw [hd] at hp
    simp only [Bool.and_eq_true, decide_eq_true_eq, List.all_eq_true] at hp
    obtain ⟨ha, hall⟩ := hp
    subst ha
    refine ⟨body, rfl, ?_⟩
    intro s hs
    have h := hall s hs
    simp only [Bool.and_eq_true, List.all_eq_true] at h
    constructor
    · intro hnil
      subst hnil
      simpa using h.1
    · intro ch hch
      exact h.2 ch hch


theorem map_map_id_of_good (f : Char → Char) (hf : ∀ ch, goodChar ch = true → f ch = ch) :
    ∀ segs : List (List Char), (∀ s ∈ segs, ∀ ch ∈ s, goodChar ch = true) →
      segs.map (List.map f) = segs := by
  intro segs
  induction segs with
  | nil => intro _; rfl
  | cons s rest ih =>
    intro h
    rw [List.map_cons, map_id_of_good f hf s (h s (by simp)),
      ih (fun x hx => h x (by simp [hx]))]

theorem slugOfPath_good (p : String) (hp : goodPathB p = true) :
    (slugOfPath p).data = joinSep '_' (splitSep '/' p.data.tail) := by
  obtain ⟨body, hbody, hall⟩ := goodPathB_elim p hp
  have hsegs := joinSep_splitSep '/' body
  set segs := splitSep '/' body with hsegsdef
  obtain ⟨s0, rest, hsr⟩ : ∃ s0 rest, segs = s0 :: rest := by
    cases hs : segs with
    | nil => exact absurd hs (splitSep_ne_nil '/' body)
    | cons s0 rest => exact ⟨s0, rest, rfl⟩
  have hs0ne : s0 ≠ [] := (hall s0 (by rw [hsr]; simp)).1
  obtain ⟨c0, s0', hc0⟩ : ∃ c0 s0', s0 = c0 :: s0' := by
    cases s0 with
    | nil => exact absurd rfl hs0ne
    | cons c0 s0' => exact ⟨c0, s0', rfl⟩
  have hc0good : goodChar c0 = true :=
    (hall s0 (by rw [hsr]; simp)).2 c0 (by rw [hc0]; simp)
  have hbody_shape : body = joinSep '/' segs := hsegs.symm
  -- head of body
  obtain ⟨btail, hbt⟩ : ∃ t, body = c0 :: t := by
    rw [hbody_shape, hsr, hc0]
    cases rest with
    | nil => exact ⟨s0', rfl⟩
    | cons g gs => exact ⟨s0' ++ '/' :: joinSep '/' (g :: gs), rfl⟩
  -- last of body
  obtain ⟨slast, hslmem, hsl⟩ := joinSep_getLast? '/' segs (by rw [hsr]; simp)
    (fun s hs => (hall s hs).1)
  obtain ⟨blast, hblast, hblmem⟩ := list_getLast?_mem slast (hall slast hslmem).1
  have hblgood : goodChar blast = true := (hall slast hslmem).2 blast hblmem
  have hstrip1 : pyStripChar '/' p.data = body := by
    rw [hbody]
    unfold pyStripChar
    rw [show dropLeading '/' ('/' :: body) = List.dropWhile (fun a => a = '/') body from by
      simp [dropLeading]]
    rw [show List.dropWhile (fun a => a = '/') body = body from by
      rw [hbt]
      rw [List.dropWhile_cons]
      simp [goodChar_ne_slash c0 hc0good]]
    exact dropTrailing_id '/' body blast
      (by rw [hbody_shape]; rw [hsl]; exact hblast)
      (goodChar_ne_slash blast hblgood)
  have hsub : subToUnderscore body = joinSep '_' segs := by
    unfold subToUnderscore
    rw [hbody_shape, map_joinSep]
    rw [show subChar '/' = '_' from by decide]
    rw [map_map_id_of_good subChar goodChar_subChar segs (fun s hs => (hall s hs).2)]
  have hcoll : collapseUnd (joinSep '_' segs) = joinSep '_' segs :=
    collapse_joinSeg segs (fun s hs =>
      ⟨(hall s hs).1, fun ch hch => goodChar_ne_und ch ((hall s hs).2 ch hch)⟩)
  have hlow : pyLower (joinSep '_' segs) = joinSep '_' segs := by
    unfold pyLower
    rw [map_joinSep]
    rw [show pyLowerChar '_' = '_' from by decide]
    rw [map_map_id_of_good pyLowerChar goodChar_lower segs (fun s hs => (hall s hs).2)]
  obtain ⟨slast2, hslmem2, hsl2⟩ := joinSep_getLast? '_' segs (by rw [hsr]; simp)
    (fun s hs => (hall s hs).1)
  obtain ⟨blast2, hblast2, hblmem2⟩ := list_getLast?_mem slast2 (hall slast2 hslmem2).1
  have hstrip2 : pyStripChar '_' (joinSep '_' segs) = joinSep '_' segs := by
    unfold pyStripChar
    rw [dropLeading_id '_' (joinSep '_' segs) c0
      (by rw [hsr, hc0]; exact joinSep_head? '_' c0 s0' rest)
      (goodChar_ne_und c0 hc0good)]
    exact dropTrailing_id '_' (joinSep '_' segs) blast2
      (by rw [hsl2]; exact hblast2)
      (goodChar_ne_und blast2 ((hall slast2 hslmem2).2 blast2 hblmem2))
  show (String.mk (pyStripChar '_' (pyLower (collapseUnd (subToUnderscore
    (pyStripChar '/' p.data)))))).data = joinSep '_' (splitSep '/' p.data.tail)
  rw [hstrip1, hsub, hcoll, hlow, hstrip2, hbody]
  simp only [List.tail_cons]

/-- On well-segmented paths the slug computation is injective: the slug is
the segments joined by underscores, and the segments determine the path. -/
theorem slugOfPath_inj (p1 p2 : String) (h1 : goodPathB p1 = true)
    (h2 : goodPathB p2 = true) (heq : slugOfPath p1 = slugOfPath p2) : p1 = p2 := by
  obtain ⟨b1, hb1, hall1⟩ := goodPathB_elim p1 h1
  obtain ⟨b2, hb2, hall2⟩ := goodPathB_elim p2 h2
  have hd : (slugOfPath p1).data = (slugOfPath p2).data := by rw [heq]
  rw [slugOfPath_good p1 h1, slugOfPath_good p2 h2, hb1, hb2] at hd
  simp only [List.tail_cons] at hd
  have hsegs : splitSep '/' b1 = splitSep '/' b2 := by
    refine joinSep_inj '_' (splitSep '/' b1) (splitSep '/' b2) ?_ ?_ hd
    · intro s hs
      exact ⟨(hall1 s hs).1,
        fun hm => absurd ((hall1 s hs).2 '_' hm) (by decide)⟩
    · intro s hs
      exact ⟨(hall2 s hs).1,
        fun hm => absurd ((hall2 s hs).2 '_' hm) (by decide)⟩
  have hb : b1 = b2 := by
    rw [← joinSep_splitSep '/' b1, ← joinSep_splitSep '/' b2, hsegs]
  have hdata : p1.data = p2.data := by rw [hb1, hb2, hb]
  cases p1
  cases p2
  simp only at hdata
  rw [hdata]

/-- Collision fixture: two URLs on the same host whose paths differ, are not
trailing-slash, query, or fragment variants of each other, and still slug to
the same identifier. -/
def slugUrl1 : String := "https://h/a/b"

/-- The colliding partner of slugUrl1: its path replaces the slash by an
underscore. -/
def slugUrl2 : String := "https://h/a_b"

/-- C7, counterexample to the claim as stated: the URLs https://h/a/b and
https://h/a_b live on the same host, have different paths that are not
equivalent up to trailing slash (and carry no query or fragment), yet both
derive the identifier a_b, because the slug substitution maps the path
separator and the underscore to the same character. -/
theorem c7_slug_collision :
    url_to_slug slugUrl1 = url_to_slug slugUrl2 ∧
      (urlparse slugUrl1).netloc = (urlparse slugUrl2).netloc ∧
      (urlparse slugUrl1).path ≠ (urlparse slugUrl2).path ∧
      pyRstrip '/' (urlparse slugUrl1).path ≠ pyRstrip '/' (urlparse slugUrl2).path ∧
      (urlparse slugUrl1).query = "" ∧ (urlparse slugUrl2).query = "" ∧
      (urlparse slugUrl1).fragment = "" ∧ (urlparse slugUrl2).fragment = "" := by
  decide

/-- C7, amended: the slug derivation is deterministic (it is a pure function
of the URL), and it is collision-resistant on well-segmented paths: two URLs
on the same host whose paths consist of non-empty slash-separated segments
over lowercase letters, digits, and hyphens (which rules out the documented
trailing-slash equivalence, and query and fragment do not enter the path)
receive distinct identifiers whenever their paths differ; outside this
segment alphabet distinct paths can collide, as the counterexample shows. -/
theorem c7_slug_injective_on_segment_paths (u v : String)
    (hu : goodPathB (urlparse u).path = true)
    (hv : goodPathB (urlparse v).path = true)
    (hnet : (urlparse u).netloc = (urlparse v).netloc)
    (hne : (urlparse u).path ≠ (urlparse v).path) :
    url_to_slug u ≠ url_to_slug v := by
  intro heq
  exact hne (slugOfPath_inj (urlparse u).path (urlparse v).path hu hv heq)

/-- C7, witness: two same-host URLs with distinct well-segmented paths have
distinct slugs. -/
theorem c7_slug_injective_on_segment_paths_witness :
    goodPathB (urlparse "https://h/a/b").path = true ∧
      goodPathB (urlparse "https://h/c").path = true ∧
      (urlparse "https://h/a/b").netloc = (urlparse "https://h/c").netloc ∧
      (urlparse "https://h/a/b").path ≠ (urlparse "https://h/c").path ∧
      url_to_slug "https://h/a/b" ≠ url_to_slug "https://h/c" :=
  ⟨by decide, by decide, by decide, by decide,
    c7_slug_injective_on_segment_paths "https://h/a/b" "https://h/c"
      (by decide) (by decide) (by decide) (by decide)⟩

end AusScraper
